import Mathlib

/-
Formal model of the RandBLAS core: COO/CSR sparse utilities, the sparse
left-apply kernel, the dense sketch-multiply kernels (lskge3 / rskge3),
the RNG state constructor, and the repeated Fisher-Yates sampler.

Conventions of the embedding:
* matrix values are exact integers: the C++ code is generic over a real
  scalar type T, and every kernel under study uses only ring operations
  (+, *) on T, so the algebraic and structural claims are stated over the
  exact carrier ZZ;
* flat buffers (T pointers) are total functions from flat index to value;
* int64_t index arrays are lists of naturals (all indices in play are
  zero-based and nonnegative);
* in-place mutation is explicit state passing: a function that mutates an
  argument returns the new value of that argument;
* randblas_require is an Option result: none models the abortive
  precondition-failure signal, some is normal completion.
-/

namespace RandBLAS

/-- blas::Layout. -/
inductive Layout where
  | ColMajor : Layout
  | RowMajor : Layout
deriving DecidableEq, Repr

/-- blas::Op. -/
inductive Op where
  | NoTrans : Op
  | Trans : Op
deriving DecidableEq, Repr

/-- RandBLAS::sparse_data::NonzeroSort. -/
inductive NonzeroSort where
  | CSC : NonzeroSort
  | CSR : NonzeroSort
  | None : NonzeroSort
deriving DecidableEq, Repr

/-- RandBLAS::IndexBase. -/
inductive IndexBase where
  | Zero : IndexBase
  | One : IndexBase
deriving DecidableEq, Repr

/-- Pointwise update of a flat buffer: buf[p] = v. -/
def upd (f : ℕ → ℤ) (p : ℕ) (v : ℤ) : ℕ → ℤ :=
  fun q => if q = p then v else f q

/-- The comparator increasing_by_csr from coo_sort_type (coo.hh). -/
def increasing_by_csr (i0 j0 i1 j1 : ℕ) : Bool :=
  if i0 > i1 then false
  else if i0 = i1 then decide (j0 ≤ j1)
  else true

/-- The comparator increasing_by_csc from coo_sort_type (coo.hh). -/
def increasing_by_csc (i0 j0 i1 j1 : ℕ) : Bool :=
  if j0 > j1 then false
  else if j0 = j1 then decide (i0 ≤ i1)
  else true

/-- coo_sort_type (coo.hh): classify the sort order of COO coordinates by a
linear scan over adjacent pairs.  The short-circuit break in the C++ loop
does not change the result (the two flags only ever move from true to
false), so the scan is modelled by checking every adjacent pair. -/
def coo_sort_type (rows cols : List ℕ) : NonzeroSort :=
  let pairs := rows.zip cols
  let adjacent := pairs.zip pairs.tail
  let csr_okay := adjacent.all (fun q => increasing_by_csr q.1.1 q.1.2 q.2.1 q.2.2)
  let csc_okay := adjacent.all (fun q => increasing_by_csc q.1.1 q.1.2 q.2.1 q.2.2)
  if csr_okay then NonzeroSort.CSR
  else if csc_okay then NonzeroSort.CSC
  else NonzeroSort.None

/-- A COO nonzero triple (row, col, val) as packed by sort_coo_data. -/
abbrev CooTriple := ℕ × ℕ × ℤ

/-- The strict comparator sort_func from sort_coo_data (coo.hh): (row, col)
lexicographic for CSR target order, (col, row) lexicographic otherwise. -/
def sort_func (s : NonzeroSort) (t1 t2 : CooTriple) : Bool :=
  if s = NonzeroSort.CSR then
    if t1.1 < t2.1 then true
    else if t1.1 > t2.1 then false
    else if t1.2.1 < t2.2.1 then true
    else false
  else
    if t1.2.1 < t2.2.1 then true
    else if t1.2.1 > t2.2.1 then false
    else if t1.1 < t2.1 then true
    else false

/-- Triple-of-lists to list-of-triples, as in the vector-of-triples
materialization in sort_coo_data. -/
def cooTriples (vals : List ℤ) (rows cols : List ℕ) : List CooTriple :=
  rows.zip (cols.zip vals)

/-- sort_coo_data (coo.hh, array form): pack into triples, sort with
sort_func, unpack.  std::sort with a strict comparator produces an order
sorted by that comparator; it is modelled by insertionSort with the
matching non-strict comparator (one admissible and deterministic
execution of std::sort).  A target order of None returns immediately,
leaving the arrays untouched. -/
def sort_coo_data (s : NonzeroSort) (vals : List ℤ) (rows cols : List ℕ) :
    List ℤ × List ℕ × List ℕ :=
  if s = NonzeroSort.None then (vals, rows, cols)
  else
    let nonzeros := cooTriples vals rows cols
    let sorted := nonzeros.insertionSort (fun t1 t2 => sort_func s t2 t1 = false)
    (sorted.map (fun t => t.2.2), sorted.map (fun t => t.1), sorted.map (fun t => t.2.1))

/-- RandBLAS::sparse_data::COOMatrix.  nnz is kept as the length of the
three parallel lists (the structure invariant of the data model); the
separate signed nnz sentinel of SparseSkOp is modelled with that operator. -/
structure COOMatrix where
  n_rows : ℕ
  n_cols : ℕ
  index_base : IndexBase
  own_memory : Bool
  nnz : ℕ
  vals : List ℤ
  rows : List ℕ
  cols : List ℕ
  sort : NonzeroSort
deriving DecidableEq, Repr

/-- The structure invariant of COOMatrix: the three parallel arrays have
exactly nnz entries. -/
def COOMatrix.wf (S : COOMatrix) : Prop :=
  S.vals.length = S.nnz ∧ S.rows.length = S.nnz ∧ S.cols.length = S.nnz

instance (S : COOMatrix) : Decidable S.wf := by
  unfold COOMatrix.wf; infer_instance

/-- sort_coo_data (coo.hh, matrix form): sort the arrays in place and
record the new sort order in the sort field. -/
def sort_coo_mat (s : NonzeroSort) (S : COOMatrix) : COOMatrix :=
  let t := sort_coo_data s S.vals S.rows S.cols
  { S with vals := t.1, rows := t.2.1, cols := t.2.2, sort := s }

/-- RandBLAS::sparse_data::transpose (coo.hh): build a non-owning view with
the rows and cols arrays exchanged, the sort flag mapped CSC to CSR and CSR
to CSC, and (exactly as the constructor call in the source reads)
n_rows and n_cols taken from S unchanged. -/
def transpose (S : COOMatrix) : COOMatrix :=
  let srt : NonzeroSort :=
    if S.sort = NonzeroSort.CSC then NonzeroSort.CSR
    else if S.sort = NonzeroSort.CSR then NonzeroSort.CSC
    else NonzeroSort.None
  { n_rows := S.n_rows
    n_cols := S.n_cols
    index_base := S.index_base
    own_memory := false
    nnz := S.nnz
    vals := S.vals
    rows := S.cols
    cols := S.rows
    sort := srt }

/-- set_filtered_colptr (coo.hh): one linear scan over the (CSC-sorted)
column indices, writing into new_colptr the position of the first nonzero
at or beyond each window column.  prev_col starts at col_start - 1, so it
is carried as an integer. -/
def set_filtered_colptr (nnz : ℕ) (colidxs : List ℕ) (col_start col_end : ℕ)
    (new_colptr : List ℕ) : List ℕ :=
  let step := fun (st : ℤ × List ℕ) (q : ℕ × ℕ) =>
    let ell := q.1
    let curr_col := q.2
    if curr_col < col_start then st
    else
      let colptr_update_limit : ℕ := min curr_col col_end
      let lo : ℕ := (st.1 + 1).toNat
      let count : ℕ := colptr_update_limit + 1 - lo
      let cp := (List.range count).foldl
        (fun cp t => cp.set (lo + t - col_start) ell) st.2
      ((curr_col : ℤ), cp)
  (((colidxs.take nnz).enum).foldl step (((col_start : ℤ) - 1), new_colptr)).2

/-- The inner k-loop of set_filtered_csc_from_cscoo over one window column:
entries with row below the window are skipped (continue), the first entry
with row at or beyond the window end stops the column (break), and the rest
are kept with the row index shifted by row_start. -/
def filterColEntries (vals : List ℤ) (rowidxs : List ℕ) (row_start row_end : ℕ) :
    List ℕ → List (ℕ × ℤ)
  | [] => []
  | k :: rest =>
    let i := rowidxs.getD k 0
    if i < row_start then filterColEntries vals rowidxs row_start row_end rest
    else if row_end ≤ i then []
    else (i - row_start, vals.getD k 0) :: filterColEntries vals rowidxs row_start row_end rest

/-- set_filtered_csc_from_cscoo (coo.hh): build the filtered column pointer
array, then compact the nonzeros of the requested window into the
preallocated (zero-filled, nnz-sized) new_vals / new_rowidxs buffers.
Returns (new_nnz, new_vals, new_rowidxs, new_colptr). -/
def set_filtered_csc_from_cscoo (vals : List ℤ) (rowidxs colidxs : List ℕ)
    (nnz col_start col_end row_start row_end : ℕ) (new_colptr : List ℕ) :
    ℕ × List ℤ × List ℕ × List ℕ :=
  let colptr := set_filtered_colptr nnz colidxs col_start col_end new_colptr
  let entries := (List.range (col_end - col_start)).foldl
    (fun acc j =>
      let start := colptr.getD j 0
      let stop := colptr.getD (j + 1) 0
      acc ++ filterColEntries vals rowidxs row_start row_end (List.range' start (stop - start)))
    []
  let new_nnz := entries.length
  let new_vals := entries.map (fun e => e.2) ++ List.replicate (nnz - new_nnz) 0
  let new_rowidxs := entries.map (fun e => e.1) ++ List.replicate (nnz - new_nnz) 0
  (new_nnz, new_vals, new_rowidxs, colptr)

/-- blas::scal on the first n entries of a buffer (the trusted
scalar-vector-scale primitive, unit stride). -/
def scal (n : ℕ) (alpha : ℤ) (x : List ℤ) : List ℤ :=
  x.mapIdx (fun i xi => if i < n then alpha * xi else xi)

/-- apply_csc_to_vector_from_left (coo.hh): Sv += S * v for one dense
column.  The C++ receives the column base pointers &A[...] and &B[...];
the model passes the flat buffers with explicit base offsets.  The running
index i is shared across columns of S, exactly as in the source. -/
def apply_csc_to_vector_from_left (v : ℕ → ℤ) (vbase incv : ℕ)
    (Sv : ℕ → ℤ) (svbase incSv : ℕ) (n_cols : ℕ)
    (vals : List ℤ) (rowidxs : List ℕ) (colptr : List ℕ) : ℕ → ℤ :=
  let step := fun (st : ℕ × (ℕ → ℤ)) (c : ℕ) =>
    let scale := v (vbase + c * incv)
    let stop := colptr.getD (c + 1) 0
    let ks := List.range' st.1 (stop - st.1)
    let B := ks.foldl
      (fun B k =>
        let row := rowidxs.getD k 0
        upd B (svbase + row * incSv) (B (svbase + row * incSv) + vals.getD k 0 * scale))
      st.2
    (max st.1 stop, B)
  ((List.range n_cols).foldl step (0, Sv)).2

/-- Steps 2 and 3 of apply_coo_left (coo.hh): filter the requested window
of the CSC-sorted matrix into a compacted CSC structure, rescale the
filtered values by alpha in place, and scatter-accumulate column by column
(the omp-parallel loop partitions the n output columns; each column is
independent, so the sequential fold computes the same buffer).  The
sort-order-reduction branch of apply_coo_left calls a function
apply_cscoo_submat_to_vector_from_left that is not under src/; it is
modelled from the spec (section 4.6) as this same filter / alpha-scale /
scatter-accumulate, which is exactly what steps 2 and 3 perform on a
CSC-sorted matrix.
The source allocates S_colptr with m slots; set_filtered_colptr and the
apply loop address slot m as the end marker, so the model gives the
allocation the one extra slot the algorithm requires. -/
def apply_cscoo_submat_to_vector_from_left (alpha : ℤ) (layout_A layout_B : Layout)
    (d n m : ℕ) (S0 : COOMatrix) (row_offset col_offset : ℕ)
    (A : ℕ → ℤ) (lda : ℕ) (B : ℕ → ℤ) (ldb : ℕ) : ℕ → ℤ :=
  let S0_nnz := S0.nnz
  let colptr0 := List.replicate (m + 1) 0
  let f := set_filtered_csc_from_cscoo S0.vals S0.rows S0.cols S0_nnz
    col_offset (col_offset + m) row_offset (row_offset + d) colptr0
  let S_nnz := f.1
  let S_vals := scal S_nnz alpha f.2.1
  let S_rows := f.2.2.1
  let S_colptr := f.2.2.2
  let strides_A := if layout_A = Layout.ColMajor then (lda, 1) else (1, lda)
  let strides_B := if layout_B = Layout.ColMajor then (ldb, 1) else (1, ldb)
  (List.range n).foldl
    (fun Bacc k =>
      apply_csc_to_vector_from_left A (strides_A.1 * k) strides_A.2
        Bacc (strides_B.1 * k) strides_B.2 m S_vals S_rows S_colptr)
    B

/-- Result of apply_coo_left: the output buffer B and the final state of
the COOMatrix argument S0 (which the kernel mutates transiently). -/
structure ApplyCooLeftResult where
  B : ℕ → ℤ
  S0 : COOMatrix

/-- apply_coo_left (coo.hh): B += alpha * submat(S0) * A.  If S0 is not in
CSC sort order it is re-sorted to CSC, applied, and re-sorted to the
original order recorded on entry; otherwise the window filter and
scatter-accumulate run directly.  The source requires
index_base == IndexBase::Zero; the model is stated on zero-based matrices. -/
def apply_coo_left (alpha : ℤ) (layout_A layout_B : Layout) (d n m : ℕ)
    (S0 : COOMatrix) (row_offset col_offset : ℕ)
    (A : ℕ → ℤ) (lda : ℕ) (B : ℕ → ℤ) (ldb : ℕ) : ApplyCooLeftResult :=
  if S0.sort ≠ NonzeroSort.CSC then
    let orig_sort := S0.sort
    let S1 := sort_coo_mat NonzeroSort.CSC S0
    let B1 := apply_cscoo_submat_to_vector_from_left alpha layout_A layout_B d n m S1
      row_offset col_offset A lda B ldb
    let S2 := sort_coo_mat orig_sort S1
    ⟨B1, S2⟩
  else
    ⟨apply_cscoo_submat_to_vector_from_left alpha layout_A layout_B d n m S0
      row_offset col_offset A lda B ldb, S0⟩

/-- C10: transpose(S) returns a non-owning view sharing the vals buffer of
S, with the rows and cols index arrays exchanged, the sort flag mapped
CSR to CSC, CSC to CSR and None to None, and n_rows and n_cols taken
unchanged from S (not swapped). -/
theorem transpose_view_fields (S : COOMatrix) :
    (transpose S).own_memory = false ∧
    (transpose S).vals = S.vals ∧
    (transpose S).rows = S.cols ∧
    (transpose S).cols = S.rows ∧
    (transpose S).nnz = S.nnz ∧
    (transpose S).index_base = S.index_base ∧
    (transpose S).sort = (if S.sort = NonzeroSort.CSC then NonzeroSort.CSR
      else if S.sort = NonzeroSort.CSR then NonzeroSort.CSC else NonzeroSort.None) ∧
    (transpose S).n_rows = S.n_rows ∧
    (transpose S).n_cols = S.n_cols := by
  refine ⟨rfl, rfl, rfl, rfl, rfl, rfl, ?_, rfl, rfl⟩
  cases S with
  | mk nr nc ib om nnz v r c srt => cases srt <;> simp [transpose]

end RandBLAS

namespace RandBLAS

/-- An all-zero flat buffer. -/
def zeroBuf : ℕ → ℤ := fun _ => 0

/-- C1 failing input: S0 = [[1 7]] stored CSC-sorted, windowed to its
(0,0) entry (d = m = 1). -/
def C1_S0 : COOMatrix :=
  ⟨1, 2, IndexBase.Zero, false, 2, [1, 7], [0, 0], [0, 1], NonzeroSort.CSC⟩

/-- C1 failing input: A = [1]. -/
def C1_A : ℕ → ℤ := fun p => if p = 0 then 1 else 0

/-- C1 failing input: B on entry = [5]. -/
def C1_B : ℕ → ℤ := fun p => if p = 0 then 5 else 0

/-- C1: the sparse left-apply kernel has no beta scaling at all: with
alpha = 1, S windowed to the single entry 1, A = [1] and B = [5] on entry,
apply_coo_left leaves B[0] = B_entry + alpha * S00 * A0 = 6, whereas the
GEMM contract that lskges documents demands
alpha * S00 * A0 + beta * B_entry = 1 at beta = 0.  So the exit value of B
cannot equal the GEMM contract for every beta: the accumulate is performed
on the unscaled entry value of B. -/
theorem apply_coo_left_ignores_beta :
    (apply_coo_left 1 Layout.ColMajor Layout.ColMajor 1 1 1 C1_S0 0 0 C1_A 1 C1_B 1).B 0
      = C1_B 0 + 1 * 1 * 1 ∧
    (C1_B 0 + 1 * 1 * 1 : ℤ) ≠ 1 * 1 * 1 + 0 * C1_B 0 := by
  decide

/-- C9 counterexample input: an unsorted (sort = None) COO matrix whose
coordinate arrays are not in CSC order. -/
def C9_S0 : COOMatrix :=
  ⟨2, 2, IndexBase.Zero, false, 2, [2, 3], [1, 0], [1, 0], NonzeroSort.None⟩

/-- C9 counterexample: on a sort = None operand, apply_coo_left returns
with the rows array re-sorted to CSC order, [0, 1], which differs from its
entry value [1, 0]: the ordering of (vals, rows, cols) is NOT restored for
every entering sort order. -/
theorem apply_coo_left_none_not_restored :
    (apply_coo_left 1 Layout.ColMajor Layout.ColMajor 2 1 2 C9_S0 0 0 zeroBuf 2 zeroBuf 2).S0.rows
      = [0, 1] ∧
    C9_S0.rows = [1, 0] ∧
    (apply_coo_left 1 Layout.ColMajor Layout.ColMajor 2 1 2 C9_S0 0 0 zeroBuf 2 zeroBuf 2).S0.rows
      ≠ C9_S0.rows := by
  decide

end RandBLAS

namespace RandBLAS

/-- The strict CSR comparator in arithmetic form: sort_func for a CSR
target order is the strict lexicographic order on the (row, col) key. -/
theorem sort_func_CSR_iff (t1 t2 : CooTriple) :
    sort_func NonzeroSort.CSR t1 t2 = true ↔
      (t1.1 < t2.1 ∨ (t1.1 = t2.1 ∧ t1.2.1 < t2.2.1)) := by
  simp only [sort_func, if_pos rfl]
  split_ifs <;> simp_all <;> omega

/-- Unpacking the packed triples of three equal-length parallel arrays
recovers each array. -/
theorem cooTriples_proj (vals : List ℤ) (rows cols : List ℕ)
    (h1 : rows.length = cols.length) (h2 : cols.length = vals.length) :
    (cooTriples vals rows cols).map (fun t => t.1) = rows ∧
    (cooTriples vals rows cols).map (fun t => t.2.1) = cols ∧
    (cooTriples vals rows cols).map (fun t => t.2.2) = vals := by
  induction rows generalizing cols vals with
  | nil =>
    cases cols with
    | nil =>
      cases vals with
      | nil => simp [cooTriples]
      | cons v vs => simp at h2
    | cons c cs => simp at h1
  | cons r rs ih =>
    cases cols with
    | nil => simp at h1
    | cons c cs =>
      cases vals with
      | nil => simp at h2
      | cons v vs =>
        have hl1 : rs.length = cs.length := by simpa using h1
        have hl2 : cs.length = vs.length := by simpa using h2
        have ihh := ih vs cs hl1 hl2
        simp only [cooTriples] at ihh ⊢
        simp [List.zip_cons_cons, ihh.1, ihh.2.1, ihh.2.2]

/-- Re-packing the projections of a list of triples gives the list back. -/
theorem cooTriples_maps (l : List CooTriple) :
    cooTriples (l.map (fun t => t.2.2)) (l.map (fun t => t.1)) (l.map (fun t => t.2.1)) = l := by
  induction l with
  | nil => rfl
  | cons h t ih => simp only [cooTriples, List.map_cons, List.zip_cons_cons] at *; simp [ih]

/-- Re-sorting to CSC order and back to CSR order restores arrays that
were CSR-sorted with pairwise-distinct (row, col) keys.  (With duplicate
keys std::sort gives no ordering guarantee among the duplicates, so this
is the strongest restoration the source can promise.) -/
theorem sort_coo_data_roundtrip_CSR (vals : List ℤ) (rows cols : List ℕ)
    (h1 : rows.length = cols.length) (h2 : cols.length = vals.length)
    (hs : (cooTriples vals rows cols).Pairwise
      (fun t1 t2 => sort_func NonzeroSort.CSR t1 t2 = true)) :
    (sort_coo_data NonzeroSort.CSR
      (sort_coo_data NonzeroSort.CSC vals rows cols).1
      (sort_coo_data NonzeroSort.CSC vals rows cols).2.1
      (sort_coo_data NonzeroSort.CSC vals rows cols).2.2) = (vals, rows, cols) := by
  set l := cooTriples vals rows cols with hl
  set relCSC : CooTriple → CooTriple → Prop :=
    fun t1 t2 => sort_func NonzeroSort.CSC t2 t1 = false with hrelCSC
  set relCSR : CooTriple → CooTriple → Prop :=
    fun t1 t2 => sort_func NonzeroSort.CSR t2 t1 = false with hrelCSR
  have hCSCne : (NonzeroSort.CSC : NonzeroSort) ≠ NonzeroSort.None := by decide
  have hCSRne : (NonzeroSort.CSR : NonzeroSort) ≠ NonzeroSort.None := by decide
  set l1 := l.insertionSort relCSC with hl1
  have hstep1 : sort_coo_data NonzeroSort.CSC vals rows cols =
      (l1.map (fun t => t.2.2), l1.map (fun t => t.1), l1.map (fun t => t.2.1)) := by
    simp only [sort_coo_data, if_neg hCSCne]
  rw [hstep1]
  simp only [sort_coo_data, if_neg hCSRne]
  rw [cooTriples_maps l1]
  set l2 := l1.insertionSort relCSR with hl2
  have hperm : l2.Perm l := ((l1.perm_insertionSort relCSR).trans (l.perm_insertionSort relCSC))
  have htotal : ∀ t1 t2 : CooTriple, relCSR t1 t2 ∨ relCSR t2 t1 := by
    intro t1 t2
    by_cases hc : sort_func NonzeroSort.CSR t2 t1 = false
    · exact Or.inl hc
    · right
      show sort_func NonzeroSort.CSR t1 t2 = false
      have ht : sort_func NonzeroSort.CSR t2 t1 = true := by
        cases hb : sort_func NonzeroSort.CSR t2 t1 <;> simp_all
      rw [sort_func_CSR_iff] at ht
      cases hb : sort_func NonzeroSort.CSR t1 t2
      · rfl
      · rw [sort_func_CSR_iff] at hb; omega
  have htrans : ∀ t1 t2 t3 : CooTriple, relCSR t1 t2 → relCSR t2 t3 → relCSR t1 t3 := by
    intro t1 t2 t3 ha hb
    have ha2 : ¬ (sort_func NonzeroSort.CSR t2 t1 = true) := by
      intro hx
      rw [show relCSR t1 t2 = (sort_func NonzeroSort.CSR t2 t1 = false) from rfl] at ha
      simp [hx] at ha
    have hb2 : ¬ (sort_func NonzeroSort.CSR t3 t2 = true) := by
      intro hx
      rw [show relCSR t2 t3 = (sort_func NonzeroSort.CSR t3 t2 = false) from rfl] at hb
      simp [hx] at hb
    rw [sort_func_CSR_iff] at ha2 hb2
    show sort_func NonzeroSort.CSR t3 t1 = false
    cases hx : sort_func NonzeroSort.CSR t3 t1
    · rfl
    · rw [sort_func_CSR_iff] at hx; omega
  haveI instTot : IsTotal CooTriple relCSR := ⟨htotal⟩
  haveI instTrans : IsTrans CooTriple relCSR := ⟨htrans⟩
  have hsorted2 : l2.Sorted relCSR := List.sorted_insertionSort relCSR l1
  have hdistinct : l.Pairwise (fun t1 t2 : CooTriple => ¬(t1.1 = t2.1 ∧ t1.2.1 = t2.2.1)) := by
    refine hs.imp ?_
    intro a b hab
    rw [sort_func_CSR_iff] at hab
    omega
  have hdist2 : l2.Pairwise (fun t1 t2 : CooTriple => ¬(t1.1 = t2.1 ∧ t1.2.1 = t2.2.1)) := by
    refine (List.Perm.pairwise_iff ?_ hperm).mpr hdistinct
    intro x y hxy
    omega
  have hstrict2 : l2.Sorted (fun t1 t2 => sort_func NonzeroSort.CSR t1 t2 = true) := by
    have := (hsorted2.and hdist2)
    refine this.imp ?_
    intro a b hab
    obtain ⟨hle, hne⟩ := hab
    have : ¬ (sort_func NonzeroSort.CSR b a = true) := by
      intro hx
      rw [show relCSR a b = (sort_func NonzeroSort.CSR b a = false) from rfl] at hle
      simp [hx] at hle
    rw [sort_func_CSR_iff] at this
    rw [sort_func_CSR_iff]
    omega
  haveI instAnti : IsAntisymm CooTriple (fun t1 t2 => sort_func NonzeroSort.CSR t1 t2 = true) := by
    constructor
    intro a b ha hb
    rw [sort_func_CSR_iff] at ha hb
    omega
  have hleq : l2 = l := List.eq_of_perm_of_sorted hperm hstrict2 hs
  rw [hleq, hl]
  have hp := cooTriples_proj vals rows cols h1 h2
  rw [hp.1, hp.2.1, hp.2.2]

/-- C9 amended: apply_coo_left always restores the sort FIELD of S0 to its
entry value and leaves a CSC-sorted operand completely untouched; a
CSR-sorted operand (with pairwise-distinct coordinate keys, the most the
unstable std::sort can guarantee) has its arrays restored; but an operand
entering with sort = None keeps the sort field None while its arrays are
left in the transient CSC order, not their entry order. -/
theorem apply_coo_left_transient_sort (alpha : ℤ) (lA lB : Layout) (d n m : ℕ)
    (S0 : COOMatrix) (ro co : ℕ) (A : ℕ → ℤ) (lda : ℕ) (B : ℕ → ℤ) (ldb : ℕ) :
    ((apply_coo_left alpha lA lB d n m S0 ro co A lda B ldb).S0.sort = S0.sort) ∧
    (S0.sort = NonzeroSort.CSC →
      (apply_coo_left alpha lA lB d n m S0 ro co A lda B ldb).S0 = S0) ∧
    (S0.sort = NonzeroSort.CSR → S0.wf →
      (cooTriples S0.vals S0.rows S0.cols).Pairwise
        (fun t1 t2 => sort_func NonzeroSort.CSR t1 t2 = true) →
      (apply_coo_left alpha lA lB d n m S0 ro co A lda B ldb).S0 = S0) ∧
    (S0.sort = NonzeroSort.None →
      (apply_coo_left alpha lA lB d n m S0 ro co A lda B ldb).S0 =
        { sort_coo_mat NonzeroSort.CSC S0 with sort := NonzeroSort.None }) := by
  refine ⟨?_, ?_, ?_, ?_⟩
  · by_cases h : S0.sort = NonzeroSort.CSC
    · simp [apply_coo_left, h]
    · simp [apply_coo_left, h, sort_coo_mat]
  · intro h
    simp [apply_coo_left, h]
  · intro h hwf hp
    obtain ⟨nr, nc, ib, om, nnzv, va, ra, ca, so⟩ := S0
    simp only at h
    subst h
    obtain ⟨hv, hr, hc⟩ := hwf
    simp only at hv hr hc
    have h1 : ra.length = ca.length := by omega
    have h2 : ca.length = va.length := by omega
    have hrt := sort_coo_data_roundtrip_CSR va ra ca h1 h2 hp
    have hne : (NonzeroSort.CSR : NonzeroSort) ≠ NonzeroSort.CSC := by decide
    simp only [apply_coo_left, hne, ne_eq, not_false_iff, if_true, sort_coo_mat, ite_true,
      reduceIte]
    simp [hrt]
  · intro h
    have hne : S0.sort ≠ NonzeroSort.CSC := by rw [h]; decide
    simp [apply_coo_left, hne, h, sort_coo_mat, sort_coo_data]

/-- Witness input for the transient-sort theorem: a CSR-sorted COO matrix
with distinct coordinate keys. -/
def C9_Sw : COOMatrix :=
  ⟨2, 2, IndexBase.Zero, false, 2, [4, 5], [0, 1], [1, 0], NonzeroSort.CSR⟩

/-- The transient-sort theorem applied to the concrete CSR-sorted witness:
apply_coo_left hands the operand back unchanged. -/
theorem apply_coo_left_transient_sort_witness :
    (apply_coo_left 1 Layout.ColMajor Layout.ColMajor 2 1 2 C9_Sw 0 0 zeroBuf 2 zeroBuf 2).S0
      = C9_Sw :=
  (apply_coo_left_transient_sort 1 Layout.ColMajor Layout.ColMajor 2 1 2 C9_Sw 0 0
    zeroBuf 2 zeroBuf 2).2.2.1 (by decide) (by decide) (by decide)

end RandBLAS

namespace RandBLAS

/-- RandBLAS::sparse_data::CSRMatrix (csr.hh). -/
structure CSRMatrix where
  n_rows : ℕ
  n_cols : ℕ
  index_base : IndexBase
  own_memory : Bool
  nnz : ℕ
  vals : List ℤ
  rowptr : List ℕ
  colidxs : List ℕ
deriving DecidableEq, Repr

/-- The inner while loop of coo_to_csr (csr.hh): copy the nonzeros of row i
into the CSR arrays at the running position ell while coo.rows[ell] == i.
The C++ condition reads coo.rows[ell] with no bound check; the model bounds
the loop with fuel = nnz - ell, so it stops when the arrays end, which is
the only defined reading of the scan. -/
def coo_to_csr_row (rows cols : List ℕ) (cvals : List ℤ) (i : ℕ) :
    ℕ → ℕ → List ℕ → List ℤ → ℕ × List ℕ × List ℤ
  | 0, ell, colidxs, vals => (ell, colidxs, vals)
  | fuel + 1, ell, colidxs, vals =>
    if rows.getD ell 0 = i then
      coo_to_csr_row rows cols cvals i fuel (ell + 1)
        (colidxs.set ell (cols.getD ell 0)) (vals.set ell (cvals.getD ell 0))
    else (ell, colidxs, vals)

/-- coo_to_csr (csr.hh): sort the COO matrix to CSR order (mutating it),
reserve the CSR arrays (fresh allocations, modelled zero-filled), set
rowptr[0] = 0, then for each row copy the matching nonzeros and write the
row terminator as csr.rowptr[ell] = ell — at index ell, the running
nonzero counter, exactly as the source reads (not at index i + 1).
Returns the mutated COO matrix and the filled CSR matrix. -/
def coo_to_csr (coo0 : COOMatrix) (csr : CSRMatrix) : COOMatrix × CSRMatrix :=
  let coo := sort_coo_mat NonzeroSort.CSR coo0
  let nnz := coo.nnz
  let st0 : ℕ × List ℕ × List ℤ × List ℕ :=
    (0, List.replicate nnz 0, List.replicate nnz (0 : ℤ),
      (List.replicate (csr.n_rows + 1) 0).set 0 0)
  let st := (List.range coo.n_rows).foldl
    (fun st i =>
      let r := coo_to_csr_row coo.rows coo.cols coo.vals i (nnz - st.1) st.1 st.2.1 st.2.2.1
      (r.1, r.2.1, r.2.2, st.2.2.2.set r.1 r.1))
    st0
  (coo, { csr with nnz := nnz, colidxs := st.2.1, vals := st.2.2.1, rowptr := st.2.2.2 })

/-- csr_to_coo (csr.hh): after the dimension requires, reserve the COO
arrays (fresh allocations, modelled zero-filled) and copy row by row.
The write index ell is initialized to zero and never incremented, the
copied value is csr.vals[ell] (not csr.vals[j]) and the recorded column
is the CSR position j (not csr.colidxs[j]) — all exactly as the source
reads.  none models the dimension-mismatch abort. -/
def csr_to_coo (csr : CSRMatrix) (coo : COOMatrix) : Option COOMatrix :=
  if csr.n_rows = coo.n_rows ∧ csr.n_cols = coo.n_cols then
    let ell := 0
    let st := (List.range csr.n_rows).foldl
      (fun (st : List ℤ × List ℕ × List ℕ) i =>
        let start := csr.rowptr.getD i 0
        let stop := csr.rowptr.getD (i + 1) 0
        (List.range' start (stop - start)).foldl
          (fun st j =>
            (st.1.set ell (csr.vals.getD ell 0), st.2.1.set ell i, st.2.2.set ell j))
          st)
      (List.replicate csr.nnz (0 : ℤ), List.replicate csr.nnz 0, List.replicate csr.nnz 0)
    some { coo with
      nnz := csr.nnz
      vals := st.1
      rows := st.2.1
      cols := st.2.2
      sort := NonzeroSort.CSR }
  else none

/-- C5 failing input: the 2 x 2 diagonal COO matrix with nonzeros
(0,0) = 1 and (1,1) = 2, already CSR-sorted. -/
def C5_coo : COOMatrix :=
  ⟨2, 2, IndexBase.Zero, true, 2, [1, 2], [0, 1], [0, 1], NonzeroSort.CSR⟩

/-- C5: a fresh owning CSR matrix to convert into. -/
def C5_csr0 : CSRMatrix := ⟨2, 2, IndexBase.Zero, true, 0, [], [], []⟩

/-- C5: a fresh owning COO matrix to convert back into. -/
def C5_coo0 : COOMatrix := ⟨2, 2, IndexBase.Zero, true, 0, [], [], [], NonzeroSort.None⟩

/-- C5: the coo_to_csr / csr_to_coo round trip does not recover the
nonzeros of the diagonal matrix diag(1, 2): the intermediate CSR matrix is
correct (vals [1, 2], rowptr [0, 1, 2], colidxs [0, 1]), but csr_to_coo
leaves its write index at zero forever and records the CSR position as the
column, returning vals [1, 0], rows [1, 0], cols [1, 0] instead of the
original triples (0,0,1), (1,1,2). -/
theorem coo_csr_roundtrip_broken :
    (coo_to_csr C5_coo C5_csr0).2.vals = [1, 2] ∧
    (coo_to_csr C5_coo C5_csr0).2.rowptr = [0, 1, 2] ∧
    (coo_to_csr C5_coo C5_csr0).2.colidxs = [0, 1] ∧
    (csr_to_coo (coo_to_csr C5_coo C5_csr0).2 C5_coo0).map
        (fun c => (c.vals, c.rows, c.cols))
      = some ([1, 0], [1, 0], [1, 0]) ∧
    (coo_to_csr C5_coo C5_csr0).1.vals = [1, 2] ∧
    (coo_to_csr C5_coo C5_csr0).1.rows = [0, 1] ∧
    ([1, 0] : List ℤ) ≠ [1, 2] := by
  decide

end RandBLAS

namespace RandBLAS

/-- RandBLAS::base::RNGState with the generator-specific widths
len_c = len_k = 4 of the two-argument constructor (base.cc). -/
structure RNGStateC where
  ctr : List ℕ
  key : List ℕ
deriving DecidableEq, Repr

/-- The RNGState(uint32_t c0, uint32_t k0) constructor (base.cc): it
allocates ctr and key with new uint32_t[4] — uninitialized storage — and
assigns only ctr[0] = c0 and key[0] = k0.  mem models the indeterminate
residual contents of the fresh allocations: words 1..3 of both arrays
hold whatever the allocator left there. -/
def RNGState_mk (c0 k0 : ℕ) (mem : ℕ → ℕ) : RNGStateC :=
  { ctr := [c0 % 2 ^ 32, mem 0 % 2 ^ 32, mem 1 % 2 ^ 32, mem 2 % 2 ^ 32]
    key := [k0 % 2 ^ 32, mem 3 % 2 ^ 32, mem 4 % 2 ^ 32, mem 5 % 2 ^ 32] }

/-- C7: two RNGStates constructed from the same seed pair (c0, k0) = (0, 0)
need not have equal counter and key contents: only word 0 of each 4-word
array is assigned, so the states differ whenever the residual allocation
contents differ (here all-zero residue versus all-one residue), even
though word 0 of both arrays agrees.  Determinism across invocations and
process runs therefore fails at the constructor. -/
theorem RNGState_mk_not_deterministic :
    RNGState_mk 0 0 (fun _ => 0) ≠ RNGState_mk 0 0 (fun _ => 1) ∧
    (RNGState_mk 0 0 (fun _ => 0)).ctr.getD 0 9 = (RNGState_mk 0 0 (fun _ => 1)).ctr.getD 0 9 ∧
    (RNGState_mk 0 0 (fun _ => 0)).key.getD 0 9 = (RNGState_mk 0 0 (fun _ => 1)).key.getD 0 9 := by
  decide

/-- RandBLAS::SparseSkOp, reduced to the two fields the lskges / rskges
dispatch inspects: the declared signed nonzero count nnz (negative means
not yet materialized) and the nonneg nonzero count that materialization
from (dist, seed_state) produces.  fill_sparse is not under src/. -/
structure SparseSkOpD where
  fill_nnz : ℕ
  nnz : ℤ
deriving DecidableEq, Repr

/-- Modelled from the spec: fill_sparse (not under src/) materializes the
operator, after which its declared nonzero count is the nonnegative count
determined by (dist, seed_state). -/
def fill_sparse (S : SparseSkOpD) : SparseSkOpD := { S with nnz := (S.fill_nnz : ℤ) }

/-- lskges (skge.hh): when S.nnz < 0 it materializes a shallow copy,
recurses, and RETURNS; otherwise it takes the COO view and performs the
sparse multiply once.  The result lists the declared nonzero count of the
operator view handed to each sparse-multiply (left_spmm) invocation, in
order. -/
def lskges_spmm_nnzs (S : SparseSkOpD) : List ℤ :=
  if S.nnz < 0 then lskges_spmm_nnzs (fill_sparse S)
  else [S.nnz]
termination_by if S.nnz < 0 then 1 else 0
decreasing_by
  simp only [fill_sparse]
  simp_all

/-- rskges (skge.hh): same dispatch as lskges except that the branch which
materializes and recurses does NOT return — control falls through, takes
the COO view of the ORIGINAL operator (declared count still negative) and
invokes the sparse multiply (right_spmm) a second time.  The result lists
the declared nonzero count handed to each invocation, in order. -/
def rskges_spmm_nnzs (S : SparseSkOpD) : List ℤ :=
  if S.nnz < 0 then rskges_spmm_nnzs (fill_sparse S) ++ [S.nnz]
  else [S.nnz]
termination_by if S.nnz < 0 then 1 else 0
decreasing_by
  simp only [fill_sparse]
  simp_all

/-- C4: on an unmaterialized operator (declared nnz = -1, materialized
count 5), lskges performs exactly one sparse multiply, on the materialized
view — but rskges performs TWO: one on the materialized shallow copy and,
because the lazy-materialization branch is missing its return, a second
one on the original operator whose declared count is still -1. -/
theorem rskges_double_apply :
    rskges_spmm_nnzs ⟨5, -1⟩ = [5, -1] ∧
    (rskges_spmm_nnzs ⟨5, -1⟩).length ≠ 1 ∧
    lskges_spmm_nnzs ⟨5, -1⟩ = [5] := by
  have h1 : rskges_spmm_nnzs ⟨5, -1⟩ = rskges_spmm_nnzs ⟨5, 5⟩ ++ [-1] := by
    rw [rskges_spmm_nnzs]
    norm_num [fill_sparse]
  have h2 : rskges_spmm_nnzs (⟨5, 5⟩ : SparseSkOpD) = [5] := by
    rw [rskges_spmm_nnzs]
    norm_num
  have h3 : lskges_spmm_nnzs ⟨5, -1⟩ = lskges_spmm_nnzs ⟨5, 5⟩ := by
    rw [lskges_spmm_nnzs]
    norm_num [fill_sparse]
  have h4 : lskges_spmm_nnzs (⟨5, 5⟩ : SparseSkOpD) = [5] := by
    rw [lskges_spmm_nnzs]
    norm_num
  refine ⟨by rw [h1, h2]; rfl, by rw [h1, h2]; decide, by rw [h3, h4]⟩

end RandBLAS

namespace RandBLAS

/-- BLAS dense addressing: flat index of entry (i, j) of a matrix with the
given layout and leading dimension — ColMajor buf[i + j * ld], RowMajor
buf[i * ld + j] (skge.hh doc comments, spec section 4.5). -/
def matIdx (layout : Layout) (ld i j : ℕ) : ℕ :=
  if layout = Layout.ColMajor then i + j * ld else i * ld + j

/-- Read a flat buffer as a matrix entry under a layout and leading
dimension. -/
def matEntry (layout : Layout) (ld : ℕ) (buf : ℕ → ℤ) (i j : ℕ) : ℤ :=
  buf (matIdx layout ld i j)

/-- Apply a transpose flag to an entry function. -/
def opEntry (op : Op) (f : ℕ → ℕ → ℤ) : ℕ → ℕ → ℤ :=
  fun i j => if op = Op.NoTrans then f i j else f j i

/-- The transpose-flag flip performed when the operator storage layout
differs from the multiply layout (skge.hh). -/
def flip_op (op : Op) : Op :=
  if op = Op.NoTrans then Op.Trans else Op.NoTrans

/-- The (i, j) cell of the output matrix that owns flat position p, if
any: the first pair below the output bounds whose flat address is p. -/
def findWriteIdx (layout : Layout) (ld rows cols p : ℕ) : Option (ℕ × ℕ) :=
  (List.range rows).findSome? (fun i =>
    (List.range cols).findSome? (fun j =>
      if matIdx layout ld i j = p then some (i, j) else none))

/-- The trusted dense GEMM collaborator (spec section 6):
C := alpha * op(A) * op(B) + beta * C with C of shape m x n and inner
dimension k; flat positions addressed by mat(C) are updated, every other
position of the C buffer is left as it was. -/
def gemm (layout : Layout) (opA opB : Op) (m n k : ℕ) (alpha : ℤ)
    (A : ℕ → ℤ) (lda : ℕ) (B : ℕ → ℤ) (ldb : ℕ) (beta : ℤ) (C : ℕ → ℤ) (ldc : ℕ) :
    ℕ → ℤ :=
  fun p =>
    match findWriteIdx layout ldc m n p with
    | some ij =>
      alpha * (∑ l ∈ Finset.range k,
          opEntry opA (matEntry layout lda A) ij.1 l * opEntry opB (matEntry layout ldb B) l ij.2)
        + beta * C p
    | Option.none => C p

/-- A cell found by findWriteIdx lies inside the output bounds. -/
theorem findWriteIdx_bounds (layout : Layout) (ld rows cols p i j : ℕ)
    (h : findWriteIdx layout ld rows cols p = some (i, j)) : i < rows ∧ j < cols := by
  unfold findWriteIdx at h
  obtain ⟨a, ha, hfa⟩ := List.exists_of_findSome?_eq_some h
  obtain ⟨b, hb, hfb⟩ := List.exists_of_findSome?_eq_some hfa
  split_ifs at hfb with hm
  · cases hfb
    exact ⟨List.mem_range.mp ha, List.mem_range.mp hb⟩

/-- gemm depends on its two multiplicand buffers only through the
effective (post-op, post-layout) entries inside the multiplication
bounds. -/
theorem gemm_congr (layout : Layout) (opA1 opA2 opB1 opB2 : Op) (m n k : ℕ) (alpha : ℤ)
    (A1 : ℕ → ℤ) (lda1 : ℕ) (A2 : ℕ → ℤ) (lda2 : ℕ)
    (B1 : ℕ → ℤ) (ldb1 : ℕ) (B2 : ℕ → ℤ) (ldb2 : ℕ) (beta : ℤ) (C : ℕ → ℤ) (ldc : ℕ)
    (hA : ∀ i, i < m → ∀ l, l < k →
      opEntry opA1 (matEntry layout lda1 A1) i l = opEntry opA2 (matEntry layout lda2 A2) i l)
    (hB : ∀ l, l < k → ∀ j, j < n →
      opEntry opB1 (matEntry layout ldb1 B1) l j = opEntry opB2 (matEntry layout ldb2 B2) l j) :
    gemm layout opA1 opB1 m n k alpha A1 lda1 B1 ldb1 beta C ldc =
      gemm layout opA2 opB2 m n k alpha A2 lda2 B2 ldb2 beta C ldc := by
  funext p
  unfold gemm
  cases hidx : findWriteIdx layout ldc m n p with
  | none => rfl
  | some ij =>
    obtain ⟨i, j⟩ := ij
    obtain ⟨hi, hj⟩ := findWriteIdx_bounds layout ldc m n p i j hidx
    have hsum : (∑ l ∈ Finset.range k,
        opEntry opA1 (matEntry layout lda1 A1) i l * opEntry opB1 (matEntry layout ldb1 B1) l j)
      = ∑ l ∈ Finset.range k,
        opEntry opA2 (matEntry layout lda2 A2) i l * opEntry opB2 (matEntry layout ldb2 B2) l j := by
      refine Finset.sum_congr rfl ?_
      intro l hl
      rw [hA i hi l (Finset.mem_range.mp hl), hB l (Finset.mem_range.mp hl) j hj]
    dsimp only
    rw [hsum]

/-- RandBLAS::DenseSkOp reduced to the fields lskge3 / rskge3 read:
declared shape, storage layout, the optional materialized buffer (nullptr
is Option.none), and — because fill_dense is not under src/ — the
deterministic generation procedure as an abstract entry function: entry i j
is the value that materialization writes at logical position (i, j).
This also stands in for BLASFriendlyOperator, which likewise is not under
src/. -/
structure DenseSkOpM where
  n_rows : ℕ
  n_cols : ℕ
  layout : Layout
  buff : Option (ℕ → ℤ)
  entry : ℕ → ℕ → ℤ

/-- Modelled from the spec: fill_dense (not under src/) materializes the
whole operator into a fresh buffer holding the generated entries in the
operator's storage layout (spec sections 3 and 4.5). -/
def fill_dense (S : DenseSkOpM) : DenseSkOpM :=
  { S with buff := some (fun p =>
      if S.layout = Layout.ColMajor then S.entry (p % S.n_rows) (p / S.n_rows)
      else S.entry (p / S.n_cols) (p % S.n_cols)) }

/-- Modelled from the spec: submatrix_as_blackbox (not under src/) packs
the rows x cols window of S at offset (ro, co) into a fresh column-major
buffer using the same generation procedure as full materialization
(spec section 4.5: synthesize just the requested submatrix). -/
def submatrix_as_blackbox (S : DenseSkOpM) (rows cols ro co : ℕ) : DenseSkOpM :=
  { n_rows := rows
    n_cols := cols
    layout := Layout.ColMajor
    buff := some (fun p => S.entry (ro + p % rows) (co + p / rows))
    entry := fun i j => S.entry (ro + i) (co + j) }

/-- dims_before_op (RandBLAS util, not under src/; modelled from its use
in skge.hh): the (rows, cols) shape of an operand whose post-op shape is
r x c. -/
def dims_before_op (r c : ℕ) (op : Op) : ℕ × ℕ :=
  if op = Op.NoTrans then (r, c) else (c, r)

/-- offset_and_ldim (RandBLAS util, not under src/; modelled from the BLAS
addressing the spec states): flat position of the (ro, co) corner inside
an n_rows x n_cols buffer stored in the given layout, together with that
buffer's leading dimension. -/
def offset_and_ldim (layout : Layout) (n_rows n_cols ro co : ℕ) : ℕ × ℕ :=
  if layout = Layout.ColMajor then (ro + co * n_rows, n_rows) else (ro * n_cols + co, n_cols)

/-- lskge3 (skge.hh), materialized path: the randblas_require checks on the
buffer, the operator shape against the requested submatrix, and the
leading dimensions under the given layout; then the submatrix offset, the
layout-mismatch transpose flip, and the gemm call.  none is the
precondition-failure signal. -/
def lskge3_core (layout : Layout) (opS opA : Op) (d n m : ℕ) (alpha : ℤ)
    (S : DenseSkOpM) (ro_s co_s : ℕ) (A : ℕ → ℤ) (lda : ℕ) (beta : ℤ)
    (B : ℕ → ℤ) (ldb : ℕ) : Option (ℕ → ℤ) :=
  let dims_S := dims_before_op d m opS
  match S.buff with
  | Option.none => none
  | some Sbuff =>
    if ¬ (S.n_rows ≥ dims_S.1 + ro_s) then none
    else if ¬ (S.n_cols ≥ dims_S.2 + co_s) then none
    else
      let dims_A := dims_before_op m n opA
      if layout = Layout.ColMajor ∧ ¬ (lda ≥ dims_A.1) then none
      else if layout = Layout.ColMajor ∧ ¬ (ldb ≥ d) then none
      else if layout = Layout.RowMajor ∧ ¬ (lda ≥ dims_A.2) then none
      else if layout = Layout.RowMajor ∧ ¬ (ldb ≥ n) then none
      else
        let pl := offset_and_ldim S.layout S.n_rows S.n_cols ro_s co_s
        let S_ptr := fun p => Sbuff (pl.1 + p)
        let opS2 := if S.layout ≠ layout then flip_op opS else opS
        some (gemm layout opS2 opA d n m alpha S_ptr pl.2 A lda beta B ldb)

/-- lskge3 (skge.hh): an unmaterialized operator (buff == nullptr) has
just the requested submatrix synthesized into a temporary blackbox
operator, and the call recurses with offsets (0, 0); a materialized
operator proceeds directly. -/
def lskge3 (layout : Layout) (opS opA : Op) (d n m : ℕ) (alpha : ℤ)
    (S : DenseSkOpM) (ro_s co_s : ℕ) (A : ℕ → ℤ) (lda : ℕ) (beta : ℤ)
    (B : ℕ → ℤ) (ldb : ℕ) : Option (ℕ → ℤ) :=
  match S.buff with
  | Option.none =>
    let dims_S := dims_before_op d m opS
    let submat_S := submatrix_as_blackbox S dims_S.1 dims_S.2 ro_s co_s
    lskge3_core layout opS opA d n m alpha submat_S 0 0 A lda beta B ldb
  | some _ => lskge3_core layout opS opA d n m alpha S ro_s co_s A lda beta B ldb

/-- rskge3 (skge.hh), materialized path: as lskge3_core with the operator
as the right multiplicand: B is m x d, op(S) is n x d, op(A) is m x n. -/
def rskge3_core (layout : Layout) (opA opS : Op) (m d n : ℕ) (alpha : ℤ)
    (A : ℕ → ℤ) (lda : ℕ) (S : DenseSkOpM) (ro_s co_s : ℕ) (beta : ℤ)
    (B : ℕ → ℤ) (ldb : ℕ) : Option (ℕ → ℤ) :=
  let dims_S := dims_before_op n d opS
  match S.buff with
  | Option.none => none
  | some Sbuff =>
    if ¬ (S.n_rows ≥ dims_S.1 + ro_s) then none
    else if ¬ (S.n_cols ≥ dims_S.2 + co_s) then none
    else
      let dims_A := dims_before_op m n opA
      if layout = Layout.ColMajor ∧ ¬ (lda ≥ dims_A.1) then none
      else if layout = Layout.ColMajor ∧ ¬ (ldb ≥ m) then none
      else if layout = Layout.RowMajor ∧ ¬ (lda ≥ dims_A.2) then none
      else if layout = Layout.RowMajor ∧ ¬ (ldb ≥ d) then none
      else
        let pl := offset_and_ldim S.layout S.n_rows S.n_cols ro_s co_s
        let S_ptr := fun p => Sbuff (pl.1 + p)
        let opS2 := if S.layout ≠ layout then flip_op opS else opS
        some (gemm layout opA opS2 m d n alpha A lda S_ptr pl.2 beta B ldb)

/-- rskge3 (skge.hh): blackbox dispatch for an unmaterialized operator,
direct call otherwise. -/
def rskge3 (layout : Layout) (opA opS : Op) (m d n : ℕ) (alpha : ℤ)
    (A : ℕ → ℤ) (lda : ℕ) (S : DenseSkOpM) (ro_s co_s : ℕ) (beta : ℤ)
    (B : ℕ → ℤ) (ldb : ℕ) : Option (ℕ → ℤ) :=
  match S.buff with
  | Option.none =>
    let dims_S := dims_before_op n d opS
    let submat_S := submatrix_as_blackbox S dims_S.1 dims_S.2 ro_s co_s
    rskge3_core layout opA opS m d n alpha A lda submat_S 0 0 beta B ldb
  | some _ => rskge3_core layout opA opS m d n alpha A lda S ro_s co_s beta B ldb

end RandBLAS

namespace RandBLAS

/-- C8: with a materialized operator, lskge3 (and rskge3) succeeds exactly
when the operator's declared shape contains the requested submatrix at its
offset and every leading dimension is at least the minor-axis extent of
its operand under the given layout; any violation yields the immediate
precondition-failure signal (none), and no silent truncation can occur
because the successful case is characterized completely. -/
theorem skge3_fail_fast (layout : Layout) (opS opA : Op) (d n m : ℕ) (alpha : ℤ)
    (nr nc : ℕ) (slay : Layout) (b : ℕ → ℤ) (e : ℕ → ℕ → ℤ)
    (ro co : ℕ) (A : ℕ → ℤ) (lda : ℕ) (beta : ℤ) (B : ℕ → ℤ) (ldb : ℕ) :
    ((lskge3 layout opS opA d n m alpha ⟨nr, nc, slay, some b, e⟩ ro co A lda beta B ldb).isSome ↔
      (nr ≥ (dims_before_op d m opS).1 + ro ∧ nc ≥ (dims_before_op d m opS).2 + co ∧
        (layout = Layout.ColMajor → lda ≥ (dims_before_op m n opA).1 ∧ ldb ≥ d) ∧
        (layout = Layout.RowMajor → lda ≥ (dims_before_op m n opA).2 ∧ ldb ≥ n))) ∧
    ((rskge3 layout opA opS m d n alpha A lda ⟨nr, nc, slay, some b, e⟩ ro co beta B ldb).isSome ↔
      (nr ≥ (dims_before_op n d opS).1 + ro ∧ nc ≥ (dims_before_op n d opS).2 + co ∧
        (layout = Layout.ColMajor → lda ≥ (dims_before_op m n opA).1 ∧ ldb ≥ m) ∧
        (layout = Layout.RowMajor → lda ≥ (dims_before_op m n opA).2 ∧ ldb ≥ d))) := by
  constructor <;>
  · simp only [lskge3, rskge3, lskge3_core, rskge3_core]
    cases layout <;> split_ifs <;>
      simp_all only [Option.isSome_some, Option.isSome_none, Bool.false_eq_true, true_iff,
        false_iff, reduceCtorEq, false_and, not_false_iff, false_implies, true_implies,
        forall_const, not_and, not_not, not_le, not_lt, ge_iff_le, true_and, and_true,
        not_true, IsEmpty.forall_iff] <;>
      omega

end RandBLAS

namespace RandBLAS

/-- Column-major flat addressing decodes its row: (a + b * ld) % ld = a
for a < ld. -/
theorem colMajor_decode_mod (a b ld : ℕ) (h : a < ld) : (a + b * ld) % ld = a := by
  rw [Nat.add_mul_mod_self_right, Nat.mod_eq_of_lt h]

/-- Column-major flat addressing decodes its column: (a + b * ld) / ld = b
for a < ld. -/
theorem colMajor_decode_div (a b ld : ℕ) (h : a < ld) : (a + b * ld) / ld = b := by
  have hld : 0 < ld := lt_of_le_of_lt (Nat.zero_le a) h
  rw [Nat.add_mul_div_right _ _ hld, Nat.div_eq_of_lt h, Nat.zero_add]

/-- Row-major flat addressing decodes its column. -/
theorem rowMajor_decode_mod (a b ld : ℕ) (h : b < ld) : (a * ld + b) % ld = b := by
  rw [Nat.mul_comm, Nat.mul_add_mod, Nat.mod_eq_of_lt h]

/-- Row-major flat addressing decodes its row. -/
theorem rowMajor_decode_div (a b ld : ℕ) (h : b < ld) : (a * ld + b) / ld = a := by
  have hld : 0 < ld := lt_of_le_of_lt (Nat.zero_le b) h
  rw [Nat.add_comm, Nat.add_mul_div_right _ _ hld, Nat.div_eq_of_lt h, Nat.zero_add]

/-- Reading a buffer column-major is reading its row-major transpose: the
core algebraic fact behind the layout/transpose interchange. -/
theorem matEntry_colMajor_rowMajor (ld : ℕ) (buf : ℕ → ℤ) (a b : ℕ) :
    matEntry Layout.ColMajor ld buf a b = matEntry Layout.RowMajor ld buf b a := by
  simp [matEntry, matIdx, Nat.mul_comm, Nat.add_comm]

/-- Flipping the transpose flag compensates exactly for reading the buffer
in the other layout. -/
theorem opEntry_flip (lay1 lay2 : Layout) (h : lay1 ≠ lay2) (op : Op) (ld : ℕ)
    (buf : ℕ → ℤ) (i l : ℕ) :
    opEntry (flip_op op) (matEntry lay2 ld buf) i l = opEntry op (matEntry lay1 ld buf) i l := by
  cases lay1 <;> cases lay2 <;> (try exact absurd rfl h) <;> cases op <;>
    simp [opEntry, flip_op, matEntry_colMajor_rowMajor]

/-- Reading through the submatrix corner offset of offset_and_ldim shifts
both logical indices, in either storage layout. -/
theorem matEntry_offset (slay : Layout) (nr nc ro co : ℕ) (buf : ℕ → ℤ) (a b : ℕ) :
    matEntry slay (offset_and_ldim slay nr nc ro co).2
        (fun p => buf ((offset_and_ldim slay nr nc ro co).1 + p)) a b
      = matEntry slay (if slay = Layout.ColMajor then nr else nc) buf (ro + a) (co + b) := by
  cases slay <;>
    simp only [matEntry, matIdx, offset_and_ldim, reduceCtorEq, reduceIte, if_pos rfl,
      if_true, if_false, ite_true, ite_false] <;>
    (congr 1; ring)

/-- The effective operator entries consumed by the gemm call of
lskge3_core / rskge3_core — offset pointer, leading dimension from the
operator's own layout, and the transpose flag flipped on layout
mismatch — are exactly the entries of the operator's logical submatrix
under the un-flipped flag. -/
theorem effS_read (slay layout : Layout) (opS : Op) (nr nc ro co : ℕ) (buf : ℕ → ℤ) (i l : ℕ) :
    opEntry (if slay ≠ layout then flip_op opS else opS)
        (matEntry layout (offset_and_ldim slay nr nc ro co).2
          (fun p => buf ((offset_and_ldim slay nr nc ro co).1 + p))) i l
      = opEntry opS (fun a b =>
          matEntry slay (if slay = Layout.ColMajor then nr else nc) buf (ro + a) (co + b)) i l := by
  by_cases h : slay = layout
  · subst h
    rw [if_neg (by simp)]
    cases opS <;> simp only [opEntry, reduceIte, reduceCtorEq] <;> rw [matEntry_offset]
  · rw [if_pos h, opEntry_flip slay layout h]
    cases opS <;> simp only [opEntry, reduceIte, reduceCtorEq] <;> rw [matEntry_offset]

/-- A buffer materialized by fill_dense reads back the generated entries,
inside the operator bounds, in either storage layout. -/
theorem fill_dense_read (slay : Layout) (nr nc : ℕ) (e : ℕ → ℕ → ℤ) (x y : ℕ)
    (hx : x < nr) (hy : y < nc) :
    matEntry slay (if slay = Layout.ColMajor then nr else nc)
      (fun p => if slay = Layout.ColMajor then e (p % nr) (p / nr) else e (p / nc) (p % nc)) x y
      = e x y := by
  cases slay <;>
    simp only [matEntry, matIdx, reduceCtorEq, reduceIte, ite_true, ite_false, if_pos rfl]
  · rw [colMajor_decode_mod _ _ _ hx, colMajor_decode_div _ _ _ hx]
  · rw [rowMajor_decode_div _ _ _ hy, rowMajor_decode_mod _ _ _ hy]

/-- A temporary blackbox buffer reads back the generated entries of the
requested window, inside the window bounds. -/
theorem blackbox_read (rows ro co : ℕ) (e : ℕ → ℕ → ℤ) (a b : ℕ) (ha : a < rows) :
    matEntry Layout.ColMajor rows (fun p => e (ro + p % rows) (co + p / rows)) a b
      = e (ro + a) (co + b) := by
  simp only [matEntry, matIdx, reduceIte, ite_true, if_pos rfl]
  rw [colMajor_decode_mod _ _ _ ha, colMajor_decode_div _ _ _ ha]

end RandBLAS

namespace RandBLAS

/-- lskge3 on an unmaterialized operator (blackbox submatrix synthesis)
computes the same result as lskge3 on the fully materialized operator with
the same submatrix offsets, whenever the operator shape contains the
requested window. -/
theorem lskge3_lazy_aux (layout slay : Layout) (opS opA : Op)
    (d n m : ℕ) (alpha : ℤ) (nr nc : ℕ) (e : ℕ → ℕ → ℤ) (ro co : ℕ)
    (A : ℕ → ℤ) (lda : ℕ) (beta : ℤ) (B : ℕ → ℤ) (ldb : ℕ)
    (hr : (dims_before_op d m opS).1 + ro ≤ nr)
    (hc : (dims_before_op d m opS).2 + co ≤ nc) :
    lskge3 layout opS opA d n m alpha ⟨nr, nc, slay, Option.none, e⟩ ro co A lda beta B ldb
      = lskge3 layout opS opA d n m alpha
          (fill_dense ⟨nr, nc, slay, Option.none, e⟩) ro co A lda beta B ldb := by
  simp only [lskge3, fill_dense, submatrix_as_blackbox, lskge3_core, ge_iff_le, Nat.add_zero,
    le_refl, hr, hc, not_true, ite_false, ite_true, if_false, if_true, reduceIte]
  refine if_congr Iff.rfl rfl (if_congr Iff.rfl rfl (if_congr Iff.rfl rfl
    (if_congr Iff.rfl rfl (congrArg some ?_))))
  apply gemm_congr
  · intro i hi l hl
    calc opEntry (if Layout.ColMajor ≠ layout then flip_op opS else opS)
          (matEntry layout
            (offset_and_ldim Layout.ColMajor (dims_before_op d m opS).1 (dims_before_op d m opS).2 0 0).2
            (fun p => (fun q => e (ro + q % (dims_before_op d m opS).1) (co + q / (dims_before_op d m opS).1))
              ((offset_and_ldim Layout.ColMajor (dims_before_op d m opS).1 (dims_before_op d m opS).2 0 0).1 + p))) i l
        = opEntry opS (fun a b =>
            matEntry Layout.ColMajor
              (if Layout.ColMajor = Layout.ColMajor then (dims_before_op d m opS).1 else (dims_before_op d m opS).2)
              (fun q => e (ro + q % (dims_before_op d m opS).1) (co + q / (dims_before_op d m opS).1))
              (0 + a) (0 + b)) i l :=
          effS_read Layout.ColMajor layout opS (dims_before_op d m opS).1 (dims_before_op d m opS).2 0 0
            (fun q => e (ro + q % (dims_before_op d m opS).1) (co + q / (dims_before_op d m opS).1)) i l
      _ = opEntry opS (fun a b => e (ro + a) (co + b)) i l := by
          cases opS <;>
            simp only [opEntry, reduceCtorEq, reduceIte, ite_true, ite_false, if_pos rfl,
              Nat.zero_add, dims_before_op] at hi hl ⊢ <;>
            rw [blackbox_read] <;> simp_all [dims_before_op]
      _ = opEntry opS (fun a b =>
            matEntry slay (if slay = Layout.ColMajor then nr else nc)
              (fun q => if slay = Layout.ColMajor then e (q % nr) (q / nr)
                else e (q / nc) (q % nc)) (ro + a) (co + b)) i l := by
          cases opS <;>
            simp only [opEntry, reduceCtorEq, reduceIte, ite_true, ite_false, if_pos rfl,
              dims_before_op] at hr hc hi hl ⊢ <;>
            rw [fill_dense_read] <;> omega
      _ = opEntry (if slay ≠ layout then flip_op opS else opS)
            (matEntry layout (offset_and_ldim slay nr nc ro co).2
              (fun p => (fun q => if slay = Layout.ColMajor then e (q % nr) (q / nr)
                else e (q / nc) (q % nc)) ((offset_and_ldim slay nr nc ro co).1 + p))) i l :=
          (effS_read slay layout opS nr nc ro co
            (fun q => if slay = Layout.ColMajor then e (q % nr) (q / nr)
              else e (q / nc) (q % nc)) i l).symm
  · intro l hl j hj
    rfl

/-- rskge3 analogue of the lazy/materialized equivalence. -/
theorem rskge3_lazy_aux (layout slay : Layout) (opA opS : Op)
    (m d n : ℕ) (alpha : ℤ) (nr nc : ℕ) (e : ℕ → ℕ → ℤ) (ro co : ℕ)
    (A : ℕ → ℤ) (lda : ℕ) (beta : ℤ) (B : ℕ → ℤ) (ldb : ℕ)
    (hr : (dims_before_op n d opS).1 + ro ≤ nr)
    (hc : (dims_before_op n d opS).2 + co ≤ nc) :
    rskge3 layout opA opS m d n alpha A lda ⟨nr, nc, slay, Option.none, e⟩ ro co beta B ldb
      = rskge3 layout opA opS m d n alpha A lda
          (fill_dense ⟨nr, nc, slay, Option.none, e⟩) ro co beta B ldb := by
  simp only [rskge3, fill_dense, submatrix_as_blackbox, rskge3_core, ge_iff_le, Nat.add_zero,
    le_refl, hr, hc, not_true, ite_false, ite_true, if_false, if_true, reduceIte]
  refine if_congr Iff.rfl rfl (if_congr Iff.rfl rfl (if_congr Iff.rfl rfl
    (if_congr Iff.rfl rfl (congrArg some ?_))))
  apply gemm_congr
  · intro i hi l hl
    rfl
  · intro l hl j hj
    calc opEntry (if Layout.ColMajor ≠ layout then flip_op opS else opS)
          (matEntry layout
            (offset_and_ldim Layout.ColMajor (dims_before_op n d opS).1 (dims_before_op n d opS).2 0 0).2
            (fun p => (fun q => e (ro + q % (dims_before_op n d opS).1) (co + q / (dims_before_op n d opS).1))
              ((offset_and_ldim Layout.ColMajor (dims_before_op n d opS).1 (dims_before_op n d opS).2 0 0).1 + p))) l j
        = opEntry opS (fun a b =>
            matEntry Layout.ColMajor
              (if Layout.ColMajor = Layout.ColMajor then (dims_before_op n d opS).1 else (dims_before_op n d opS).2)
              (fun q => e (ro + q % (dims_before_op n d opS).1) (co + q / (dims_before_op n d opS).1))
              (0 + a) (0 + b)) l j :=
          effS_read Layout.ColMajor layout opS (dims_before_op n d opS).1 (dims_before_op n d opS).2 0 0
            (fun q => e (ro + q % (dims_before_op n d opS).1) (co + q / (dims_before_op n d opS).1)) l j
      _ = opEntry opS (fun a b => e (ro + a) (co + b)) l j := by
          cases opS <;>
            simp only [opEntry, reduceCtorEq, reduceIte, ite_true, ite_false, if_pos rfl,
              Nat.zero_add, dims_before_op] at hl hj ⊢ <;>
            rw [blackbox_read] <;> simp_all [dims_before_op]
      _ = opEntry opS (fun a b =>
            matEntry slay (if slay = Layout.ColMajor then nr else nc)
              (fun q => if slay = Layout.ColMajor then e (q % nr) (q / nr)
                else e (q / nc) (q % nc)) (ro + a) (co + b)) l j := by
          cases opS <;>
            simp only [opEntry, reduceCtorEq, reduceIte, ite_true, ite_false, if_pos rfl,
              dims_before_op] at hr hc hl hj ⊢ <;>
            rw [fill_dense_read] <;> omega
      _ = opEntry (if slay ≠ layout then flip_op opS else opS)
            (matEntry layout (offset_and_ldim slay nr nc ro co).2
              (fun p => (fun q => if slay = Layout.ColMajor then e (q % nr) (q / nr)
                else e (q / nc) (q % nc)) ((offset_and_ldim slay nr nc ro co).1 + p))) l j :=
          (effS_read slay layout opS nr nc ro co
            (fun q => if slay = Layout.ColMajor then e (q % nr) (q / nr)
              else e (q / nc) (q % nc)) l j).symm

end RandBLAS

namespace RandBLAS

/-- C3: for an unmaterialized DenseSkOp (buff absent) and any valid
submatrix offset, lskge3 and rskge3 synthesize just the requested
submatrix into a temporary operator and produce the same output as the
same call on the fill_dense-materialized operator, for both layouts
(multiply and storage) and both transpose settings. -/
theorem skge3_lazy_eq_materialized (layout slay : Layout) (opS opA : Op)
    (d n m : ℕ) (alpha : ℤ) (nr nc : ℕ) (e : ℕ → ℕ → ℤ) (ro co : ℕ)
    (A : ℕ → ℤ) (lda : ℕ) (beta : ℤ) (B : ℕ → ℤ) (ldb : ℕ) :
    ((dims_before_op d m opS).1 + ro ≤ nr → (dims_before_op d m opS).2 + co ≤ nc →
      lskge3 layout opS opA d n m alpha ⟨nr, nc, slay, Option.none, e⟩ ro co A lda beta B ldb
        = lskge3 layout opS opA d n m alpha
            (fill_dense ⟨nr, nc, slay, Option.none, e⟩) ro co A lda beta B ldb) ∧
    ((dims_before_op n d opS).1 + ro ≤ nr → (dims_before_op n d opS).2 + co ≤ nc →
      rskge3 layout opA opS m d n alpha A lda ⟨nr, nc, slay, Option.none, e⟩ ro co beta B ldb
        = rskge3 layout opA opS m d n alpha A lda
            (fill_dense ⟨nr, nc, slay, Option.none, e⟩) ro co beta B ldb) :=
  ⟨fun hr hc => lskge3_lazy_aux layout slay opS opA d n m alpha nr nc e ro co A lda beta B ldb hr hc,
   fun hr hc => rskge3_lazy_aux layout slay opA opS m d n alpha nr nc e ro co A lda beta B ldb hr hc⟩

/-- A concrete generation procedure for the lazy/materialized witness. -/
def C3_entry : ℕ → ℕ → ℤ := fun i j => (i : ℤ) * 10 + (j : ℤ)

/-- The lazy/materialized equivalence applied at a concrete input:
ColMajor multiply, RowMajor-stored 2 x 2 operator, transposed, submatrix
offset (0, 1). -/
theorem skge3_lazy_eq_materialized_witness :
    lskge3 Layout.ColMajor Op.Trans Op.NoTrans 1 1 2 1
        ⟨2, 2, Layout.RowMajor, Option.none, C3_entry⟩ 0 1 zeroBuf 2 1 zeroBuf 1
      = lskge3 Layout.ColMajor Op.Trans Op.NoTrans 1 1 2 1
          (fill_dense ⟨2, 2, Layout.RowMajor, Option.none, C3_entry⟩) 0 1 zeroBuf 2 1 zeroBuf 1 :=
  (skge3_lazy_eq_materialized Layout.ColMajor Layout.RowMajor Op.Trans Op.NoTrans 1 1 2 1 2 2
    C3_entry 0 1 zeroBuf 2 1 zeroBuf 1).1 (by decide) (by decide)

/-- The opposite BLAS layout. -/
def other_layout (lay : Layout) : Layout :=
  if lay = Layout.ColMajor then Layout.RowMajor else Layout.ColMajor

/-- The explicit layout-conversion copy that the transpose-flip rule
makes unnecessary: the same logical n_rows x n_cols operator matrix,
rewritten into the opposite storage layout. -/
def relaid_buff (slay : Layout) (nr nc : ℕ) (b : ℕ → ℤ) : ℕ → ℤ :=
  fun p =>
    if slay = Layout.ColMajor then
      matEntry Layout.ColMajor nr b (p / nc) (p % nc)
    else
      matEntry Layout.RowMajor nc b (p % nr) (p / nr)

/-- Reading the re-laid copy in the opposite layout gives the original
logical entries, inside the operator bounds. -/
theorem relaid_buff_read (slay : Layout) (nr nc : ℕ) (b : ℕ → ℤ) (a bb : ℕ)
    (ha : a < nr) (hb : bb < nc) :
    matEntry (other_layout slay) (if other_layout slay = Layout.ColMajor then nr else nc)
      (relaid_buff slay nr nc b) a bb
      = matEntry slay (if slay = Layout.ColMajor then nr else nc) b a bb := by
  cases slay <;>
    simp only [other_layout, relaid_buff, matEntry, matIdx, reduceCtorEq, reduceIte,
      ite_true, ite_false, if_pos rfl]
  · rw [rowMajor_decode_div _ _ _ hb, rowMajor_decode_mod _ _ _ hb]
  · rw [colMajor_decode_mod _ _ _ ha, colMajor_decode_div _ _ _ ha]

/-- lskge3 output is unchanged when the operator's buffer is replaced by
its explicit layout-conversion copy: flipping the transpose flag instead
of copying leaves the computed product intact. -/
theorem lskge3_flip_aux (layout slay : Layout) (opS opA : Op) (d n m : ℕ) (alpha : ℤ)
    (nr nc : ℕ) (b : ℕ → ℤ) (e e2 : ℕ → ℕ → ℤ)
    (A : ℕ → ℤ) (lda : ℕ) (beta : ℤ) (B : ℕ → ℤ) (ldb : ℕ) :
    lskge3 layout opS opA d n m alpha ⟨nr, nc, slay, some b, e⟩ 0 0 A lda beta B ldb
      = lskge3 layout opS opA d n m alpha
          ⟨nr, nc, other_layout slay, some (relaid_buff slay nr nc b), e2⟩ 0 0 A lda beta B ldb := by
  simp only [lskge3, lskge3_core, ge_iff_le, Nat.add_zero]
  by_cases h1 : (dims_before_op d m opS).1 ≤ nr
  case neg => simp [h1]
  by_cases h2 : (dims_before_op d m opS).2 ≤ nc
  case neg => simp [h1, h2]
  simp only [h1, h2, not_true, ite_false, if_false, reduceIte]
  refine if_congr Iff.rfl rfl (if_congr Iff.rfl rfl (if_congr Iff.rfl rfl
    (if_congr Iff.rfl rfl (congrArg some ?_))))
  apply gemm_congr
  · intro i hi l hl
    calc opEntry (if slay ≠ layout then flip_op opS else opS)
          (matEntry layout (offset_and_ldim slay nr nc 0 0).2
            (fun p => b ((offset_and_ldim slay nr nc 0 0).1 + p))) i l
        = opEntry opS (fun a bb =>
            matEntry slay (if slay = Layout.ColMajor then nr else nc) b (0 + a) (0 + bb)) i l :=
          effS_read slay layout opS nr nc 0 0 b i l
      _ = opEntry opS (fun a bb =>
            matEntry (other_layout slay) (if other_layout slay = Layout.ColMajor then nr else nc)
              (relaid_buff slay nr nc b) (0 + a) (0 + bb)) i l := by
          cases opS <;>
            simp only [opEntry, reduceCtorEq, reduceIte, ite_true, ite_false, if_pos rfl,
              Nat.zero_add, dims_before_op] at h1 h2 hi hl ⊢ <;>
            rw [relaid_buff_read] <;> omega
      _ = opEntry (if other_layout slay ≠ layout then flip_op opS else opS)
            (matEntry layout (offset_and_ldim (other_layout slay) nr nc 0 0).2
              (fun p => relaid_buff slay nr nc b
                ((offset_and_ldim (other_layout slay) nr nc 0 0).1 + p))) i l :=
          (effS_read (other_layout slay) layout opS nr nc 0 0 (relaid_buff slay nr nc b) i l).symm
  · intro l hl j hj
    rfl

/-- rskge3 analogue of the flip-instead-of-copy equivalence. -/
theorem rskge3_flip_aux (layout slay : Layout) (opA opS : Op) (m d n : ℕ) (alpha : ℤ)
    (nr nc : ℕ) (b : ℕ → ℤ) (e e2 : ℕ → ℕ → ℤ)
    (A : ℕ → ℤ) (lda : ℕ) (beta : ℤ) (B : ℕ → ℤ) (ldb : ℕ) :
    rskge3 layout opA opS m d n alpha A lda ⟨nr, nc, slay, some b, e⟩ 0 0 beta B ldb
      = rskge3 layout opA opS m d n alpha A lda
          ⟨nr, nc, other_layout slay, some (relaid_buff slay nr nc b), e2⟩ 0 0 beta B ldb := by
  simp only [rskge3, rskge3_core, ge_iff_le, Nat.add_zero]
  by_cases h1 : (dims_before_op n d opS).1 ≤ nr
  case neg => simp [h1]
  by_cases h2 : (dims_before_op n d opS).2 ≤ nc
  case neg => simp [h1, h2]
  simp only [h1, h2, not_true, ite_false, if_false, reduceIte]
  refine if_congr Iff.rfl rfl (if_congr Iff.rfl rfl (if_congr Iff.rfl rfl
    (if_congr Iff.rfl rfl (congrArg some ?_))))
  apply gemm_congr
  · intro i hi l hl
    rfl
  · intro l hl j hj
    calc opEntry (if slay ≠ layout then flip_op opS else opS)
          (matEntry layout (offset_and_ldim slay nr nc 0 0).2
            (fun p => b ((offset_and_ldim slay nr nc 0 0).1 + p))) l j
        = opEntry opS (fun a bb =>
            matEntry slay (if slay = Layout.ColMajor then nr else nc) b (0 + a) (0 + bb)) l j :=
          effS_read slay layout opS nr nc 0 0 b l j
      _ = opEntry opS (fun a bb =>
            matEntry (other_layout slay) (if other_layout slay = Layout.ColMajor then nr else nc)
              (relaid_buff slay nr nc b) (0 + a) (0 + bb)) l j := by
          cases opS <;>
            simp only [opEntry, reduceCtorEq, reduceIte, ite_true, ite_false, if_pos rfl,
              Nat.zero_add, dims_before_op] at h1 h2 hl hj ⊢ <;>
            rw [relaid_buff_read] <;> omega
      _ = opEntry (if other_layout slay ≠ layout then flip_op opS else opS)
            (matEntry layout (offset_and_ldim (other_layout slay) nr nc 0 0).2
              (fun p => relaid_buff slay nr nc b
                ((offset_and_ldim (other_layout slay) nr nc 0 0).1 + p))) l j :=
          (effS_read (other_layout slay) layout opS nr nc 0 0 (relaid_buff slay nr nc b) l j).symm

/-- C6: layout and transpose are interchangeable for the dense operator
buffer: a multiply with the operator stored in one layout (where the
kernel flips the transpose flag on mismatch instead of copying) is
bit-identical to the same multiply with the operator's buffer physically
re-laid into the other layout — reading a buffer (RowMajor, NoTrans) is
reading it (ColMajor, Trans) on the same logical matrix, which is the
matEntry_colMajor_rowMajor and opEntry_flip content this rests on. -/
theorem skge3_flip_instead_of_copy (layout slay : Layout) (opS opA : Op)
    (d n m : ℕ) (alpha : ℤ) (nr nc : ℕ) (b : ℕ → ℤ) (e e2 : ℕ → ℕ → ℤ)
    (A : ℕ → ℤ) (lda : ℕ) (beta : ℤ) (B : ℕ → ℤ) (ldb : ℕ) :
    (lskge3 layout opS opA d n m alpha ⟨nr, nc, slay, some b, e⟩ 0 0 A lda beta B ldb
      = lskge3 layout opS opA d n m alpha
          ⟨nr, nc, other_layout slay, some (relaid_buff slay nr nc b), e2⟩ 0 0 A lda beta B ldb) ∧
    (rskge3 layout opA opS m d n alpha A lda ⟨nr, nc, slay, some b, e⟩ 0 0 beta B ldb
      = rskge3 layout opA opS m d n alpha A lda
          ⟨nr, nc, other_layout slay, some (relaid_buff slay nr nc b), e2⟩ 0 0 beta B ldb) :=
  ⟨lskge3_flip_aux layout slay opS opA d n m alpha nr nc b e e2 A lda beta B ldb,
   rskge3_flip_aux layout slay opA opS m d n alpha nr nc b e e2 A lda beta B ldb⟩

end RandBLAS

namespace RandBLAS

/-- The counter-plus-key state the samplers thread (spec sections 3 and
4.1).  repeated_fisher_yates itself is not under src/ (only the test
test_updated_rngstates_fisher_yates exercises it), so the state and the
sampler below are modelled from the spec. -/
structure FYState where
  ctr : ℕ
  key : ℕ
deriving DecidableEq, Repr

/-- The swap-select step of a partial Fisher-Yates shuffle. -/
def listSwap (l : List ℕ) (i j : ℕ) : List ℕ :=
  let a := l.getD i 0
  let b := l.getD j 0
  (l.set i b).set j a

/-- Modelled from the spec (section 4.4): one partial Fisher-Yates
repetition selecting k distinct indices from [0, d): the permutation array
starts as the identity; step i draws one generator value (the t-th draw of
a repetition starting at state (ctr, key) is gen key (ctr + t)), maps it
uniformly into [i, d), swap-selects that position into position i and
records it.  The returned state advances the counter by the k draws
consumed, one counter unit per draw. -/
def fisher_yates_once (gen : ℕ → ℕ → ℕ) (k d : ℕ) (st : FYState) : List ℕ × FYState :=
  let r := (List.range k).foldl
    (fun (acc : List ℕ × List ℕ) i =>
      let u := gen st.key (st.ctr + i)
      let j := i + u % (d - i)
      let perm := listSwap acc.1 i j
      (perm, acc.2 ++ [perm.getD i 0]))
    (List.range d, [])
  (r.2, ⟨st.ctr + k, st.key⟩)

/-- Modelled from the spec (section 4.4): repeated_fisher_yates performs r
independent repetitions of size k, writing each repetition's k selected
indices contiguously into the output and threading the state through. -/
def repeated_fisher_yates (gen : ℕ → ℕ → ℕ) (k d : ℕ) : ℕ → FYState → List ℕ × FYState
  | 0, st => ([], st)
  | r + 1, st =>
    let p := fisher_yates_once gen k d st
    let q := repeated_fisher_yates gen k d r p.2
    (p.1 ++ q.1, q.2)

/-- C2: for every generator, sample size k, domain size d, repetition
counts r1, r2 and seed state, one call with r1 + r2 repetitions produces
bit for bit the output of a call with r1 repetitions followed by a call
with r2 repetitions from the returned state; the final states are equal,
so in particular the two counter advancements agree exactly — within the
one-unit batching tolerance the spec allows. -/
theorem repeated_fisher_yates_split (gen : ℕ → ℕ → ℕ) (k d r1 r2 : ℕ) (st : FYState) :
    (repeated_fisher_yates gen k d (r1 + r2) st).1
        = (repeated_fisher_yates gen k d r1 st).1
          ++ (repeated_fisher_yates gen k d r2 (repeated_fisher_yates gen k d r1 st).2).1 ∧
    (repeated_fisher_yates gen k d (r1 + r2) st).2
        = (repeated_fisher_yates gen k d r2 (repeated_fisher_yates gen k d r1 st).2).2 ∧
    (repeated_fisher_yates gen k d (r1 + r2) st).2.ctr
        = (repeated_fisher_yates gen k d r2 (repeated_fisher_yates gen k d r1 st).2).2.ctr := by
  induction r1 generalizing st with
  | zero =>
    simp [repeated_fisher_yates]
  | succ r ih =>
    have hadd : r + 1 + r2 = (r + r2) + 1 := by omega
    rw [hadd]
    simp only [repeated_fisher_yates]
    obtain ⟨h1, h2, h3⟩ := ih (fisher_yates_once gen k d st).2
    refine ⟨?_, ?_, ?_⟩
    · rw [h1, List.append_assoc]
    · rw [h2]
    · rw [h2]

end RandBLAS
